import Mathlib

/-!
Verification of the `ProteinResolver` protein-inference engine
(`src/openms/include/OpenMS/ANALYSIS/QUANTITATION/ProteinResolver.h`).

The repository sources contain only the class declaration (the header); the
member-function bodies are not part of the sources.  The definitions below are
therefore a shallow embedding modelled from the design specification, keeping
the names of the declared member functions and data structures
(`buildingISDGroups_`, `buildingMSDGroups_`, `reindexingNodes_`,
`primaryProteins_`, `computeIntensityOfMSD_`, `countTargetDecoy`,
`findPeptideEntry_`, `binarySearchNodes_`, `MSDGroup`, `ISDGroup`, ...).

Machine integers (`Size`) are modelled as `Nat`; `float` intensities are
modelled as `ℚ`.  The recursive traversals carry an explicit fuel argument so
that every definition is structurally recursive and computable by the kernel;
sufficiency of the fuel (i.e. termination of the guarded traversal) is proved
below (claim C9).
-/

set_option maxHeartbeats 1000000
set_option linter.unusedSectionVars false

namespace ProteinResolver

/-- A node of the bipartite protein/peptide graph: `Sum.inl i` is the protein
node with index `i`, `Sum.inr j` the peptide node with index `j`. -/
abbrev Node (p q : Nat) := Sum (Fin p) (Fin q)

/-- Modelled from the spec: the protein–peptide evidence graph as produced by
the graph-building step (the bodies of `resolveID` / `resolveConsensus` /
`includeMSMSPeptides_` are missing from the sources).  `protPeps i` is the
list of peptide indices associated with protein `i` (theoretical digestion
peptides plus observed-evidence associations); edges are bidirectional, the
peptide→protein direction is derived from it.  `pepExp j` is the
`PeptideEntry::experimental` flag, `pepIntensity j` the peptide intensity and
`pepDecoy j` the externally supplied target/decoy flag of the underlying
record. -/
structure Graph (p q : Nat) where
  protPeps : Fin p → List (Fin q)
  pepExp : Fin q → Bool
  pepIntensity : Fin q → ℚ
  pepDecoy : Fin q → Bool

variable {p q : Nat}

/-- The protein neighbours of peptide `j` (`PeptideEntry::proteins`), derived
from the protein→peptide edge lists, in stored (index) order. -/
def pepProts (G : Graph p q) (j : Fin q) : List (Fin p) :=
  (List.finRange p).filter (fun i => decide (j ∈ G.protPeps i))

/-- Modelled from the spec: adjacency used by the coarse (ISD) phase of the
partitioner — *all* edges, theoretical and observed
(`buildingISDGroups_`). -/
def adjISD (G : Graph p q) : Node p q → List (Node p q)
  | Sum.inl i => ((List.finRange q).filter (fun j => decide (j ∈ G.protPeps i))).map Sum.inr
  | Sum.inr j => (pepProts G j).map Sum.inl

/-- Modelled from the spec: adjacency used by the fine (MSD) phase of the
partitioner — only edges whose peptide endpoint is experimental
(`buildingMSDGroups_`). -/
def adjMSD (G : Graph p q) : Node p q → List (Node p q)
  | Sum.inl i =>
      ((List.finRange q).filter (fun j => decide (j ∈ G.protPeps i) && G.pepExp j)).map Sum.inr
  | Sum.inr j => if G.pepExp j then (pepProts G j).map Sum.inl else []

/-- Modelled from the spec: the guarded depth-first traversal shared by
`traverseProtein_` and `traversePeptide_` (their bodies are missing from the
sources), with an explicit stack instead of mutual recursion.  `visited` is
the set of nodes whose `traversed` marker is set; a node is marked *when it is
enqueued*, so it is enqueued at most once; `log` records every enqueued node.
`fuel` is an explicit structural-recursion bound; any fuel of at least
(number of unvisited nodes + stack length) gives the fixpoint (proved in
`traverse_fuel_irrelevant`). -/
def traverse_ {V : Type} [DecidableEq V] (adj : V → List V) :
    Nat → Finset V → List V → List V → Finset V × List V
  | _, visited, [], log => (visited, log)
  | 0, visited, _ :: _, log => (visited, log)
  | fuel + 1, visited, n :: rest, log =>
      let fresh := (adj n).filter (fun u => decide (u ∉ visited))
      traverse_ adj fuel (visited ∪ fresh.toFinset) (fresh ++ rest) (log ++ fresh)

/-- Modelled from the spec: the outer loop of each partition phase — scan the
given seed order; every untraversed seed starts one traversal and contributes
one group (the newly visited nodes, paired with the seed).  Groups are
numbered by position, i.e. in the order their seed is first encountered. -/
def buildGroups_ {V : Type} [DecidableEq V] (adj : V → List V) (fuel : Nat) :
    List V → Finset V → List (V × Finset V) → Finset V × List (V × Finset V)
  | [], visited, acc => (visited, acc)
  | n :: order, visited, acc =>
      if n ∈ visited then buildGroups_ adj fuel order visited acc
      else
        let r := traverse_ adj fuel (insert n visited) [n] [n]
        buildGroups_ adj fuel order r.1 (acc ++ [(n, r.1 \ visited)])

/-- The scan order of the coarse phase: all protein nodes in stored order,
then all peptide nodes in stored order. -/
def nodeScanOrder (p q : Nat) : List (Node p q) :=
  (List.finRange p).map Sum.inl ++ (List.finRange q).map Sum.inr

/-- The coarse (ISD) connected components, each paired with its seed node. -/
def isdComponents (G : Graph p q) : List (Node p q × Finset (Node p q)) :=
  (buildGroups_ (adjISD G) (p + q) (nodeScanOrder p q) ∅ []).2

/-- The seeds of the fine phase: the experimental peptide nodes in stored
order. -/
def msdSeeds (G : Graph p q) : List (Node p q) :=
  ((List.finRange q).filter (fun j => G.pepExp j)).map Sum.inr

/-- The fine (MSD) connected components (observed-only edges), each paired
with its seed node. -/
def msdComponents (G : Graph p q) : List (Node p q × Finset (Node p q)) :=
  (buildGroups_ (adjMSD G) (p + q) (msdSeeds G) ∅ []).2

/-- The coarse-group index recorded on a node (`ProteinEntry::isd_group` /
`PeptideEntry::isd_group`): the index of the ISD component containing it. -/
def isd_group (G : Graph p q) (v : Node p q) : Nat :=
  (isdComponents G).findIdx (fun c => decide (v ∈ c.2))

/-- The fine-group index recorded on a node (`ProteinEntry::msd_group` /
`PeptideEntry::msd_group`): the index of the MSD component containing it
(equal to the number of MSD groups when the node is in none). -/
def msd_group (G : Graph p q) (v : Node p q) : Nat :=
  (msdComponents G).findIdx (fun c => decide (v ∈ c.2))

/-- The protein members of a mixed node set. -/
def protMembers (s : Finset (Node p q)) : Finset (Fin p) :=
  Finset.univ.filter (fun i => Sum.inl i ∈ s)

/-- The peptide members of a mixed node set. -/
def pepMembers (s : Finset (Node p q)) : Finset (Fin q) :=
  Finset.univ.filter (fun j => Sum.inr j ∈ s)

/-- `ProteinEntry::type` from the header: the identifiability classification
of a protein. -/
inductive ProteinEntryType
  | primary
  | secondary
  | primary_indistinguishable
  | secondary_indistinguishable
deriving DecidableEq, Repr, Inhabited

/-- `MSDGroup` from the header: a fine group with its protein and peptide
members, its own index, the index of the owning ISD group (a pointer in the
header) and the statistics fields filled by `countTargetDecoy` and
`computeIntensityOfMSD_`. -/
structure MSDGroup (p q : Nat) where
  proteins : Finset (Fin p)
  peptides : Finset (Fin q)
  index : Nat
  isd_group : Nat
  number_of_decoy : Nat
  number_of_target : Nat
  number_of_target_plus_decoy : Nat
  intensity : ℚ
deriving DecidableEq, Inhabited

/-- `ISDGroup` from the header: a coarse group with its protein and peptide
members, its own index, and the indices of the MSD groups nested in it. -/
structure ISDGroup (p q : Nat) where
  proteins : Finset (Fin p)
  peptides : Finset (Fin q)
  index : Nat
  msd_groups : List Nat
deriving DecidableEq, Inhabited

/-- The `msd_groups` list of ISD group `k`: the indices of the MSD groups
whose owning coarse group is `k` (appended in MSD-index order, as the fine
phase creates them). -/
def msd_groups_of (G : Graph p q) (k : Nat) : List Nat :=
  (List.range (msdComponents G).length).filter fun m =>
    match (msdComponents G)[m]? with
    | some c => decide (isd_group G c.1 = k)
    | none => false

/-- Modelled from the spec: `buildingMSDGroups_` (body missing from the
sources) — one `MSDGroup` per fine component, numbered in creation order; the
owning ISD group is the coarse group of the seed; statistics fields start at
zero. -/
def buildingMSDGroups_ (G : Graph p q) : List (MSDGroup p q) :=
  (List.range (msdComponents G).length).map fun k =>
    match (msdComponents G)[k]? with
    | some c => ⟨protMembers c.2, pepMembers c.2, k, isd_group G c.1, 0, 0, 0, 0⟩
    | none => ⟨∅, ∅, k, 0, 0, 0, 0, 0⟩

/-- Modelled from the spec: `buildingISDGroups_` (body missing from the
sources) — one `ISDGroup` per coarse component, numbered in creation order,
with the nested MSD-group indices recorded. -/
def buildingISDGroups_ (G : Graph p q) : List (ISDGroup p q) :=
  (List.range (isdComponents G).length).map fun k =>
    match (isdComponents G)[k]? with
    | some c => ⟨protMembers c.2, pepMembers c.2, k, msd_groups_of G k⟩
    | none => ⟨∅, ∅, k, []⟩

/-- Membership of a node in an ISD group record. -/
def ISDGroup.hasNode (h : ISDGroup p q) : Node p q → Prop
  | Sum.inl i => i ∈ h.proteins
  | Sum.inr j => j ∈ h.peptides

/-- Membership of a node in an MSD group record. -/
def MSDGroup.hasNode (g : MSDGroup p q) : Node p q → Prop
  | Sum.inl i => i ∈ g.proteins
  | Sum.inr j => j ∈ g.peptides

instance (h : ISDGroup p q) (v : Node p q) : Decidable (h.hasNode v) := by
  cases v <;> simp [ISDGroup.hasNode] <;> infer_instance

instance (g : MSDGroup p q) (v : Node p q) : Decidable (g.hasNode v) := by
  cases v <;> simp [MSDGroup.hasNode] <;> infer_instance

/-- Modelled from the spec: the compacted protein index table built by
`reindexingNodes_` (body missing from the sources) — protein old-indices
listed in fine-group order, then in stored (ascending index) order within
each group. -/
def compactProteins (G : Graph p q) : List (Fin p) :=
  (buildingMSDGroups_ G).flatMap fun g =>
    (List.finRange p).filter (fun i => decide (i ∈ g.proteins))

/-- Modelled from the spec: the compacted peptide index table built by
`reindexingNodes_`. -/
def compactPeptides (G : Graph p q) : List (Fin q) :=
  (buildingMSDGroups_ G).flatMap fun g =>
    (List.finRange q).filter (fun j => decide (j ∈ g.peptides))

/-- The size of the compacted protein table (also the sentinel value). -/
def compactProteinCount (G : Graph p q) : Nat := (compactProteins G).length

/-- The size of the compacted peptide table (also the sentinel value). -/
def compactPeptideCount (G : Graph p q) : Nat := (compactPeptides G).length

/-- Modelled from the spec: the `reindexed_proteins` table of the result —
the compact index of protein `i`, or the sentinel `compactProteinCount G`
when `i` belongs to no fine group. -/
def reindexed_proteins (G : Graph p q) (i : Fin p) : Nat :=
  (compactProteins G).indexOf i

/-- Modelled from the spec: the `reindexed_peptides` table of the result. -/
def reindexed_peptides (G : Graph p q) (j : Fin q) : Nat :=
  (compactPeptides G).indexOf j

/-- A protein is reachable (consulted by the classifier) iff its reindexed
index is below the compacted table size. -/
def reachableProtein (G : Graph p q) (i : Fin p) : Bool :=
  decide (reindexed_proteins G i < compactProteinCount G)

/-- A peptide is reachable iff its reindexed index is below the compacted
table size. -/
def reachablePeptide (G : Graph p q) (j : Fin q) : Bool :=
  decide (reindexed_peptides G j < compactPeptideCount G)

/-- The protein edges of peptide `j` restricted to reachable (reindexed)
proteins. -/
def restrictedProteins (G : Graph p q) (j : Fin q) : List (Fin p) :=
  (pepProts G j).filter (fun i => reachableProtein G i)

/-- Modelled from the spec: `primaryProteins_` (body missing from the
sources) — a protein is `primary` iff it has an experimental, reachable
peptide whose protein-edge count restricted to reachable proteins is one;
otherwise `secondary`.  The disabled `indistinguishableProteins` refinement
does not run, so only these two labels occur. -/
def protein_type (G : Graph p q) (i : Fin p) : ProteinEntryType :=
  if (G.protPeps i).any
      (fun j => G.pepExp j && reachablePeptide G j && ((restrictedProteins G j).length == 1))
  then ProteinEntryType.primary else ProteinEntryType.secondary

/-- The reindexed identifying-peptide set of protein `i`: the reindexed
indices of its experimental, reachable peptides. -/
def identifyingPeptides (G : Graph p q) (i : Fin p) : Finset Nat :=
  (((G.protPeps i).filter (fun j => G.pepExp j && reachablePeptide G j)).map
    (reindexed_peptides G)).toFinset

/-- Modelled from the spec: the `ProteinEntry::indis` list — the disabled
`indistinguishableProteins` refinement links protein `i` with every *other*
protein whose reindexed identifying-peptide set is structurally equal to that
of `i`. -/
def indis (G : Graph p q) (i : Fin p) : List (Fin p) :=
  (List.finRange p).filter fun i2 =>
    decide (i2 ≠ i) && decide (identifyingPeptides G i2 = identifyingPeptides G i)

/-- Modelled from the spec: `countTargetDecoy` (body missing from the
sources) — for each MSD group, count the peptide members flagged decoy and
those flagged target, and record their sum as the target-plus-decoy total. -/
def countTargetDecoy (G : Graph p q) (msd_groups : List (MSDGroup p q)) :
    List (MSDGroup p q) :=
  msd_groups.map fun g =>
    let d := (g.peptides.filter (fun j => G.pepDecoy j = true)).card
    let t := (g.peptides.filter (fun j => G.pepDecoy j = false)).card
    { g with number_of_decoy := d, number_of_target := t,
             number_of_target_plus_decoy := d + t }

/-- The statistical median used for the MSD-group intensity: sort ascending;
an odd count takes the middle value, an even count the average of the two
central values. -/
def median (l : List ℚ) : ℚ :=
  let s := l.insertionSort (· ≤ ·)
  if l.length % 2 = 1 then s.getD (l.length / 2) 0
  else (s.getD (l.length / 2 - 1) 0 + s.getD (l.length / 2) 0) / 2

/-- The intensities of the experimental peptide members of an MSD group, in
stored (index) order. -/
def msdPeptideIntensities (G : Graph p q) (g : MSDGroup p q) : List ℚ :=
  ((List.finRange q).filter (fun j => decide (j ∈ g.peptides) && G.pepExp j)).map
    fun j => G.pepIntensity j

/-- Modelled from the spec: `computeIntensityOfMSD_` (body missing from the
sources) — set each MSD group's intensity to the median of its experimental
peptide intensities. -/
def computeIntensityOfMSD_ (G : Graph p q) (msd_groups : List (MSDGroup p q)) :
    List (MSDGroup p q) :=
  msd_groups.map fun g => { g with intensity := median (msdPeptideIntensities G g) }

/-- `PeptideEntry` as used by the sequence lookup: only the sequence key and
the evidence fields relevant here. -/
structure PeptideEntry where
  sequence : String
  experimental : Bool := false
  intensity : ℚ := 0
deriving DecidableEq, Inhabited

/-- Modelled from the spec: `binarySearchNodes_` (body missing from the
sources; the header documents `findPeptideEntry_` as returning the index of
the sequence or `nodes.size()` if not found) — binary search over the
sequence-sorted node collection on the half-open range `[start, stop)`.
`fuel` is an explicit structural-recursion bound; any fuel exceeding the
range width gives the result. -/
def binarySearchNodes_ (sq : String) (nodes : List PeptideEntry) :
    Nat → Nat → Nat → Nat
  | 0, _, _ => nodes.length
  | fuel + 1, start, stop =>
      if start < stop then
        let mid := (start + stop) / 2
        let s := (nodes.getD mid default).sequence
        if s < sq then binarySearchNodes_ sq nodes fuel (mid + 1) stop
        else if sq < s then binarySearchNodes_ sq nodes fuel start mid
        else mid
      else nodes.length

/-- Modelled from the spec: `findPeptideEntry_` — search the whole collection;
returns the matching index or the sentinel `nodes.length`. -/
def findPeptideEntry_ (sq : String) (nodes : List PeptideEntry) : Nat :=
  binarySearchNodes_ sq nodes (nodes.length + 1) 0 nodes.length

/-- The worked scenario of the specification: proteins A = 0 (peptides
PEP1 = 0, PEP2 = 1) and B = 1 (peptides PEP2 = 1, PEP3 = 2); PEP1 and PEP2
observed with intensities 10 and 20, PEP3 theoretical only. -/
def scenario : Graph 2 3 where
  protPeps := fun i => if i = 0 then [0, 1] else [1, 2]
  pepExp := fun j => decide (j.val < 2)
  pepIntensity := fun j => if j = 0 then 10 else if j = 1 then 20 else 0
  pepDecoy := fun _ => false

/-- A two-protein graph in which both proteins share their only (observed)
peptide, hence have equal identifying-peptide sets. -/
def twinScenario : Graph 2 1 where
  protPeps := fun _ => [0]
  pepExp := fun _ => true
  pepIntensity := fun _ => 5
  pepDecoy := fun _ => false

/-- A small sequence-sorted peptide-node collection for the lookup lemmas. -/
def sampleNodes : List PeptideEntry :=
  [⟨"AK", true, 1⟩, ⟨"ELVISK", false, 0⟩, ⟨"PEPTIDER", true, 2⟩]

/-! ## Generic lemmas about the guarded traversal -/

/-- The one-step edge relation of an adjacency function. -/
def adjRel {V : Type} (adj : V → List V) (a b : V) : Prop := b ∈ adj a

/-- Reachability: the reflexive-transitive closure of the edge relation. -/
def Reaches {V : Type} (adj : V → List V) : V → V → Prop :=
  Relation.ReflTransGen (adjRel adj)

section TraversalLemmas

variable {V : Type} [DecidableEq V] [Fintype V] {adj : V → List V}

theorem traverse_nil (fuel : Nat) (visited : Finset V) (log : List V) :
    traverse_ adj fuel visited [] log = (visited, log) := by
  cases fuel <;> rfl

theorem traverse_succ (fuel : Nat) (visited : Finset V) (n : V) (rest log : List V) :
    traverse_ adj (fuel + 1) visited (n :: rest) log =
      traverse_ adj fuel (visited ∪ ((adj n).filter (fun u => decide (u ∉ visited))).toFinset)
        (((adj n).filter (fun u => decide (u ∉ visited))) ++ rest)
        (log ++ ((adj n).filter (fun u => decide (u ∉ visited)))) := rfl

theorem fresh_not_visited {visited : Finset V} {n x : V}
    (hx : x ∈ (adj n).filter (fun u => decide (u ∉ visited))) : x ∉ visited := by
  rcases List.mem_filter.1 hx with ⟨-, h⟩
  simpa using h

theorem fresh_mem_adj {visited : Finset V} {n x : V}
    (hx : x ∈ (adj n).filter (fun u => decide (u ∉ visited))) : x ∈ adj n :=
  (List.mem_filter.1 hx).1

/-- The visited set only grows during a traversal. -/
theorem traverse_mono :
    ∀ (fuel : Nat) (visited : Finset V) (stack log : List V),
      visited ⊆ (traverse_ adj fuel visited stack log).1 := by
  intro fuel
  induction fuel with
  | zero =>
    intro visited stack log
    cases stack <;> simp [traverse_]
  | succ fuel ih =>
    intro visited stack log
    cases stack with
    | nil => simp [traverse_nil]
    | cons n rest =>
      rw [traverse_succ]
      exact Finset.subset_union_left.trans (ih _ _ _)

/-- Cardinality bookkeeping for one traversal step. -/
theorem fresh_card (visited : Finset V) (n : V) (hadj : (adj n).Nodup) :
    (Finset.univ \ (visited ∪ ((adj n).filter (fun u => decide (u ∉ visited))).toFinset)).card =
        (Finset.univ \ visited).card -
          ((adj n).filter (fun u => decide (u ∉ visited))).length ∧
      ((adj n).filter (fun u => decide (u ∉ visited))).length ≤
        (Finset.univ \ visited).card := by
  have hnd : ((adj n).filter (fun u => decide (u ∉ visited))).Nodup := hadj.filter _
  have hsub : ((adj n).filter (fun u => decide (u ∉ visited))).toFinset ⊆
      Finset.univ \ visited := by
    intro x hx
    rw [List.mem_toFinset] at hx
    exact Finset.mem_sdiff.2 ⟨Finset.mem_univ x, fresh_not_visited hx⟩
  have hcardF : (((adj n).filter (fun u => decide (u ∉ visited))).toFinset).card =
      ((adj n).filter (fun u => decide (u ∉ visited))).length :=
    List.toFinset_card_of_nodup hnd
  have hset : Finset.univ \ (visited ∪ ((adj n).filter (fun u => decide (u ∉ visited))).toFinset) =
      (Finset.univ \ visited) \ ((adj n).filter (fun u => decide (u ∉ visited))).toFinset := by
    ext x
    simp only [Finset.mem_sdiff, Finset.mem_union, Finset.mem_univ, true_and]
    tauto
  constructor
  · rw [hset, Finset.card_sdiff hsub, hcardF]
  · rw [← hcardF]
    exact Finset.card_le_card hsub

/-- Invariants of the enqueue log: the log stays duplicate-free, and every
logged (enqueued) node is visited in the end. -/
theorem traverse_log (hadj : ∀ v, (adj v).Nodup) :
    ∀ (fuel : Nat) (visited : Finset V) (stack log : List V),
      log.Nodup → (∀ x ∈ log, x ∈ visited) → (∀ x ∈ stack, x ∈ visited) →
      (traverse_ adj fuel visited stack log).2.Nodup ∧
        ∀ x ∈ (traverse_ adj fuel visited stack log).2,
          x ∈ (traverse_ adj fuel visited stack log).1 := by
  intro fuel
  induction fuel with
  | zero =>
    intro visited stack log hln hlv hsv
    cases stack with
    | nil => exact ⟨hln, fun x hx => traverse_mono _ _ _ _ (hlv x hx)⟩
    | cons n rest => exact ⟨hln, fun x hx => hlv x hx⟩
  | succ fuel ih =>
    intro visited stack log hln hlv hsv
    cases stack with
    | nil => exact ⟨hln, fun x hx => traverse_mono _ _ _ _ (hlv x hx)⟩
    | cons n rest =>
      rw [traverse_succ]
      apply ih
      · refine hln.append ((hadj n).filter _) ?_
        intro x hxl hxf
        exact fresh_not_visited hxf (hlv x hxl)
      · intro x hx
        rcases List.mem_append.1 hx with h | h
        · exact Finset.mem_union_left _ (hlv x h)
        · exact Finset.mem_union_right _ (List.mem_toFinset.2 h)
      · intro x hx
        rcases List.mem_append.1 hx with h | h
        · exact Finset.mem_union_right _ (List.mem_toFinset.2 h)
        · exact Finset.mem_union_left _ (hsv x (List.mem_cons_of_mem _ h))

/-- Soundness: every visited node was already visited or is reachable from a
stack node. -/
theorem traverse_sound :
    ∀ (fuel : Nat) (visited : Finset V) (stack log : List V) (x : V),
      x ∈ (traverse_ adj fuel visited stack log).1 →
      x ∈ visited ∨ ∃ s ∈ stack, Reaches adj s x := by
  intro fuel
  induction fuel with
  | zero =>
    intro visited stack log x hx
    cases stack with
    | nil => exact Or.inl (by simpa [traverse_nil] using hx)
    | cons n rest => exact Or.inl hx
  | succ fuel ih =>
    intro visited stack log x hx
    cases stack with
    | nil => exact Or.inl (by simpa [traverse_nil] using hx)
    | cons n rest =>
      rw [traverse_succ] at hx
      rcases ih _ _ _ _ hx with h | ⟨s, hs, hreach⟩
      · rcases Finset.mem_union.1 h with h | h
        · exact Or.inl h
        · refine Or.inr ⟨n, List.mem_cons_self n rest, ?_⟩
          exact Relation.ReflTransGen.single (fresh_mem_adj (List.mem_toFinset.1 h))
      · rcases List.mem_append.1 hs with h | h
        · refine Or.inr ⟨n, List.mem_cons_self n rest, ?_⟩
          exact (Relation.ReflTransGen.single (fresh_mem_adj h)).trans hreach
        · exact Or.inr ⟨s, List.mem_cons_of_mem _ h, hreach⟩

/-- With sufficient fuel, the traversal result is closed under adjacency. -/
theorem traverse_closed (hadj : ∀ v, (adj v).Nodup) :
    ∀ (fuel : Nat) (visited : Finset V) (stack log : List V),
      stack.Nodup → (∀ x ∈ stack, x ∈ visited) →
      (∀ v ∈ visited, v ∉ stack → ∀ u ∈ adj v, u ∈ visited) →
      (Finset.univ \ visited).card + stack.length ≤ fuel →
      ∀ v ∈ (traverse_ adj fuel visited stack log).1, ∀ u ∈ adj v,
        u ∈ (traverse_ adj fuel visited stack log).1 := by
  intro fuel
  induction fuel with
  | zero =>
    intro visited stack log hnd hsv hproc hfuel v hv u hu
    cases stack with
    | nil =>
      rw [traverse_nil] at hv ⊢
      exact hproc v hv (by simp) u hu
    | cons n rest => simp at hfuel
  | succ fuel ih =>
    intro visited stack log hnd hsv hproc hfuel v hv u hu
    cases stack with
    | nil =>
      rw [traverse_nil] at hv ⊢
      exact hproc v hv (by simp) u hu
    | cons n rest =>
      rw [traverse_succ] at hv ⊢
      have hcards := fresh_card visited n (hadj n)
      refine ih _ _ _ ?_ ?_ ?_ ?_ v hv u hu
      · refine (((hadj n).filter _).append (hnd.of_cons) ?_)
        intro x hxf hxr
        exact fresh_not_visited hxf (hsv x (List.mem_cons_of_mem _ hxr))
      · intro x hx
        rcases List.mem_append.1 hx with h | h
        · exact Finset.mem_union_right _ (List.mem_toFinset.2 h)
        · exact Finset.mem_union_left _ (hsv x (List.mem_cons_of_mem _ h))
      · intro w hw hwstack u2 hu2
        rcases Finset.mem_union.1 hw with hwv | hwf
        · by_cases hwn : w = n
          · subst hwn
            by_cases hu2v : u2 ∈ visited
            · exact Finset.mem_union_left _ hu2v
            · refine Finset.mem_union_right _ (List.mem_toFinset.2 ?_)
              exact List.mem_filter.2 ⟨hu2, by simpa using hu2v⟩
          · have hwrest : w ∉ rest := by
              intro hr
              exact hwstack (List.mem_append.2 (Or.inr hr))
            have : w ∉ n :: rest := by
              intro h
              rcases List.mem_cons.1 h with h | h
              · exact hwn h
              · exact hwrest h
            exact Finset.mem_union_left _ (hproc w hwv this u2 hu2)
        · exact absurd (List.mem_append.2 (Or.inl (List.mem_toFinset.1 hwf))) hwstack
      · have hlen : (((adj n).filter (fun u => decide (u ∉ visited))) ++ rest).length =
            ((adj n).filter (fun u => decide (u ∉ visited))).length + rest.length :=
          List.length_append _ _
        simp only [List.length_cons] at hfuel
        omega

/-- Any two sufficient fuels give the same traversal result: the guarded
traversal reaches its fixpoint after at most
`(number of unvisited nodes) + (stack length)` steps. -/
theorem traverse_fuel_irrelevant (hadj : ∀ v, (adj v).Nodup) :
    ∀ (fuel fuel2 : Nat) (visited : Finset V) (stack log : List V),
      (Finset.univ \ visited).card + stack.length ≤ fuel →
      (Finset.univ \ visited).card + stack.length ≤ fuel2 →
      traverse_ adj fuel visited stack log = traverse_ adj fuel2 visited stack log := by
  intro fuel
  induction fuel with
  | zero =>
    intro fuel2 visited stack log h1 h2
    cases stack with
    | nil => rw [traverse_nil, traverse_nil]
    | cons n rest => simp at h1
  | succ fuel ih =>
    intro fuel2 visited stack log h1 h2
    cases stack with
    | nil => rw [traverse_nil, traverse_nil]
    | cons n rest =>
      cases fuel2 with
      | zero => simp at h2
      | succ fuel2 =>
        rw [traverse_succ, traverse_succ]
        have hcards := fresh_card visited n (hadj n)
        apply ih
        all_goals
          simp only [List.length_append, List.length_cons] at *
          omega

/-- Reachability is symmetric when the adjacency is. -/
theorem reaches_symm (hsym : ∀ u v, u ∈ adj v ↔ v ∈ adj u) {a b : V}
    (h : Reaches adj a b) : Reaches adj b a := by
  induction h with
  | refl => exact Relation.ReflTransGen.refl
  | tail _ hstep ih =>
    exact Relation.ReflTransGen.head ((hsym _ _).1 hstep) ih

/-- An adjacency-closed set is closed under reachability. -/
theorem reaches_mem_closed {S : Finset V}
    (hcl : ∀ v ∈ S, ∀ u ∈ adj v, u ∈ S) {a b : V} (ha : a ∈ S)
    (h : Reaches adj a b) : b ∈ S := by
  induction h with
  | refl => exact ha
  | tail _ hstep ih => exact hcl _ ih _ hstep

/-- The one traversal started at a fresh seed computes exactly the
reachability component of the seed (given a closed previously-visited set),
and its result is again closed. -/
theorem traverse_component (hadj : ∀ v, (adj v).Nodup)
    (hsym : ∀ u v, u ∈ adj v ↔ v ∈ adj u)
    {fuel : Nat} (hfuel : Fintype.card V ≤ fuel) {visited : Finset V}
    (hcl : ∀ v ∈ visited, ∀ u ∈ adj v, u ∈ visited) {n : V} (hn : n ∉ visited) :
    (∀ x, x ∈ (traverse_ adj fuel (insert n visited) [n] [n]).1 \ visited ↔ Reaches adj n x) ∧
      (∀ v ∈ (traverse_ adj fuel (insert n visited) [n] [n]).1, ∀ u ∈ adj v,
        u ∈ (traverse_ adj fuel (insert n visited) [n] [n]).1) := by
  have hM : (Finset.univ \ insert n visited).card + ([n] : List V).length ≤ fuel := by
    have h1 : Finset.univ \ insert n visited ⊆ Finset.univ \ {n} := by
      intro x hx
      rw [Finset.mem_sdiff] at hx ⊢
      exact ⟨hx.1, by simp only [Finset.mem_singleton]; intro h; exact hx.2 (h ▸ Finset.mem_insert_self n visited)⟩
    have h2 : (Finset.univ \ ({n} : Finset V)).card = Fintype.card V - 1 := by
      rw [Finset.card_sdiff (Finset.subset_univ _), Finset.card_singleton, Finset.card_univ]
    have h3 := Finset.card_le_card h1
    have h4 : 1 ≤ Fintype.card V := Fintype.card_pos_iff.2 ⟨n⟩
    simp only [List.length_singleton]
    omega
  have hclosed := traverse_closed hadj fuel (insert n visited) [n] [n]
    (List.nodup_singleton n)
    (by intro x hx; rw [List.mem_singleton] at hx; exact hx ▸ Finset.mem_insert_self n visited)
    (by
      intro v hv hvn u hu
      rcases Finset.mem_insert.1 hv with h | h
      · exact absurd (h ▸ List.mem_singleton_self n) (h ▸ hvn)
      · exact Finset.mem_insert_of_mem (hcl v h u hu))
    hM
  refine ⟨fun x => ⟨fun hx => ?_, fun hx => ?_⟩, hclosed⟩
  · rcases Finset.mem_sdiff.1 hx with ⟨hx1, hx2⟩
    rcases traverse_sound fuel (insert n visited) [n] [n] x hx1 with h | ⟨s, hs, hreach⟩
    · rcases Finset.mem_insert.1 h with h | h
      · exact h ▸ Relation.ReflTransGen.refl
      · exact absurd h hx2
    · rw [List.mem_singleton] at hs
      exact hs ▸ hreach
  · have hxin : x ∈ (traverse_ adj fuel (insert n visited) [n] [n]).1 :=
      reaches_mem_closed hclosed
        (traverse_mono fuel (insert n visited) [n] [n] (Finset.mem_insert_self n visited)) hx
    refine Finset.mem_sdiff.2 ⟨hxin, fun hxv => ?_⟩
    exact hn (reaches_mem_closed hcl hxv (reaches_symm hsym hx))

/-- Master invariant of the outer loop: every produced group is exactly the
reachability component of its seed; the final visited set is the union of the
groups; the groups are pairwise disjoint; every scanned seed ends up visited;
previously produced groups and the visited set are preserved/extended. -/
theorem buildGroups_spec (hadj : ∀ v, (adj v).Nodup)
    (hsym : ∀ u v, u ∈ adj v ↔ v ∈ adj u)
    (fuel : Nat) (hfuel : Fintype.card V ≤ fuel) :
    ∀ (order : List V) (visited : Finset V) (acc : List (V × Finset V)),
      (∀ v ∈ visited, ∀ u ∈ adj v, u ∈ visited) →
      (∀ c ∈ acc, ∀ x, x ∈ c.2 ↔ Reaches adj c.1 x) →
      (∀ x, x ∈ visited ↔ ∃ c ∈ acc, x ∈ c.2) →
      acc.Pairwise (fun c c2 => Disjoint c.2 c2.2) →
      (∀ c ∈ (buildGroups_ adj fuel order visited acc).2, ∀ x,
          x ∈ c.2 ↔ Reaches adj c.1 x) ∧
        (∀ x, x ∈ (buildGroups_ adj fuel order visited acc).1 ↔
          ∃ c ∈ (buildGroups_ adj fuel order visited acc).2, x ∈ c.2) ∧
        (buildGroups_ adj fuel order visited acc).2.Pairwise
          (fun c c2 => Disjoint c.2 c2.2) ∧
        (∀ x ∈ order, x ∈ (buildGroups_ adj fuel order visited acc).1) ∧
        visited ⊆ (buildGroups_ adj fuel order visited acc).1 ∧
        (∀ c ∈ acc, c ∈ (buildGroups_ adj fuel order visited acc).2) := by
  intro order
  induction order with
  | nil =>
    intro visited acc hcl hchar hcover hdisj
    exact ⟨hchar, hcover, hdisj, by simp, Finset.Subset.refl _, fun c hc => hc⟩
  | cons n order ih =>
    intro visited acc hcl hchar hcover hdisj
    by_cases hn : n ∈ visited
    · rw [buildGroups_, if_pos hn]
      rcases ih visited acc hcl hchar hcover hdisj with ⟨h1, h2, h3, h4, h5, h6⟩
      refine ⟨h1, h2, h3, ?_, h5, h6⟩
      intro x hx
      rcases List.mem_cons.1 hx with h | h
      · exact h5 (h ▸ hn)
      · exact h4 x h
    · rw [buildGroups_, if_neg hn]
      have hc := traverse_component hadj hsym hfuel hcl hn
      set r := traverse_ adj fuel (insert n visited) [n] [n] with hr
      have hvr : visited ⊆ r.1 :=
        (Finset.subset_insert n visited).trans (traverse_mono fuel (insert n visited) [n] [n])
      have hnr : n ∈ r.1 := traverse_mono fuel (insert n visited) [n] [n] (Finset.mem_insert_self n visited)
      have hsubgrp : ∀ c ∈ acc, c.2 ⊆ visited := by
        intro c hcmem x hx
        exact (hcover x).2 ⟨c, hcmem, hx⟩
      rcases ih r.1 (acc ++ [(n, r.1 \ visited)]) hc.2
        (by
          intro c hcmem x
          rcases List.mem_append.1 hcmem with h | h
          · exact hchar c h x
          · rw [List.mem_singleton] at h
            subst h
            exact hc.1 x)
        (by
          intro x
          constructor
          · intro hx
            by_cases hxv : x ∈ visited
            · rcases (hcover x).1 hxv with ⟨c, hcm, hcx⟩
              exact ⟨c, List.mem_append.2 (Or.inl hcm), hcx⟩
            · exact ⟨(n, r.1 \ visited), List.mem_append.2 (Or.inr (List.mem_singleton_self _)),
                Finset.mem_sdiff.2 ⟨hx, hxv⟩⟩
          · rintro ⟨c, hcm, hcx⟩
            rcases List.mem_append.1 hcm with h | h
            · exact hvr ((hcover x).2 ⟨c, h, hcx⟩)
            · rw [List.mem_singleton] at h
              subst h
              exact (Finset.mem_sdiff.1 hcx).1)
        (by
          rw [List.pairwise_append]
          refine ⟨hdisj, List.pairwise_singleton _ _, ?_⟩
          intro c hcm c2 hc2m
          rw [List.mem_singleton] at hc2m
          subst hc2m
          rw [Finset.disjoint_left]
          intro x hx hx2
          exact (Finset.mem_sdiff.1 hx2).2 (hsubgrp c hcm hx)) with ⟨h1, h2, h3, h4, h5, h6⟩
      refine ⟨h1, h2, h3, ?_, hvr.trans h5, fun c hcm => h6 c (List.mem_append.2 (Or.inl hcm))⟩
      intro x hx
      rcases List.mem_cons.1 hx with h | h
      · exact h5 (h ▸ hnr)
      · exact h4 x h

end TraversalLemmas

/-! ## Properties of the two adjacency functions -/

theorem mem_pepProts {G : Graph p q} {i : Fin p} {j : Fin q} :
    i ∈ pepProts G j ↔ j ∈ G.protPeps i := by
  simp [pepProts, List.mem_filter]

theorem mem_adjISD_inl {G : Graph p q} {i : Fin p} {v : Node p q} :
    v ∈ adjISD G (Sum.inl i) ↔ ∃ j : Fin q, j ∈ G.protPeps i ∧ v = Sum.inr j := by
  simp only [adjISD, List.mem_map, List.mem_filter, List.mem_finRange, true_and,
    decide_eq_true_eq]
  constructor
  · rintro ⟨j, hj, rfl⟩
    exact ⟨j, hj, rfl⟩
  · rintro ⟨j, hj, rfl⟩
    exact ⟨j, hj, rfl⟩

theorem mem_adjISD_inr {G : Graph p q} {j : Fin q} {v : Node p q} :
    v ∈ adjISD G (Sum.inr j) ↔ ∃ i : Fin p, j ∈ G.protPeps i ∧ v = Sum.inl i := by
  simp only [adjISD, List.mem_map]
  constructor
  · rintro ⟨i, hi, rfl⟩
    exact ⟨i, mem_pepProts.1 hi, rfl⟩
  · rintro ⟨i, hi, rfl⟩
    exact ⟨i, mem_pepProts.2 hi, rfl⟩

theorem mem_adjMSD_inl {G : Graph p q} {i : Fin p} {v : Node p q} :
    v ∈ adjMSD G (Sum.inl i) ↔
      ∃ j : Fin q, j ∈ G.protPeps i ∧ G.pepExp j = true ∧ v = Sum.inr j := by
  simp only [adjMSD, List.mem_map, List.mem_filter, List.mem_finRange, true_and,
    Bool.and_eq_true, decide_eq_true_eq]
  constructor
  · rintro ⟨j, ⟨hj, hexp⟩, rfl⟩
    exact ⟨j, hj, hexp, rfl⟩
  · rintro ⟨j, hj, hexp, rfl⟩
    exact ⟨j, ⟨hj, hexp⟩, rfl⟩

theorem mem_adjMSD_inr {G : Graph p q} {j : Fin q} {v : Node p q} :
    v ∈ adjMSD G (Sum.inr j) ↔
      G.pepExp j = true ∧ ∃ i : Fin p, j ∈ G.protPeps i ∧ v = Sum.inl i := by
  simp only [adjMSD]
  by_cases hexp : G.pepExp j
  · rw [if_pos hexp]
    simp only [List.mem_map, hexp, true_and]
    constructor
    · rintro ⟨i, hi, rfl⟩
      exact ⟨i, mem_pepProts.1 hi, rfl⟩
    · rintro ⟨i, hi, rfl⟩
      exact ⟨i, mem_pepProts.2 hi, rfl⟩
  · rw [if_neg hexp]
    simp [hexp]

theorem adjISD_nodup (G : Graph p q) : ∀ v, (adjISD G v).Nodup := by
  intro v
  cases v with
  | inl i => exact (((List.nodup_finRange q).filter _).map Sum.inr_injective)
  | inr j => exact (((List.nodup_finRange p).filter _).map Sum.inl_injective)

theorem adjMSD_nodup (G : Graph p q) : ∀ v, (adjMSD G v).Nodup := by
  intro v
  cases v with
  | inl i => exact (((List.nodup_finRange q).filter _).map Sum.inr_injective)
  | inr j =>
    simp only [adjMSD]
    split
    · exact (((List.nodup_finRange p).filter _).map Sum.inl_injective)
    · exact List.nodup_nil

theorem adjISD_symm (G : Graph p q) : ∀ u v, u ∈ adjISD G v ↔ v ∈ adjISD G u := by
  intro u v
  cases u with
  | inl i =>
    cases v with
    | inl i2 =>
      simp [mem_adjISD_inl]
    | inr j =>
      rw [mem_adjISD_inr, mem_adjISD_inl]
      constructor
      · rintro ⟨i2, h, heq⟩
        cases heq
        exact ⟨j, h, rfl⟩
      · rintro ⟨j2, h, heq⟩
        cases heq
        exact ⟨i, h, rfl⟩
  | inr j =>
    cases v with
    | inl i =>
      rw [mem_adjISD_inl, mem_adjISD_inr]
      constructor
      · rintro ⟨j2, h, heq⟩
        cases heq
        exact ⟨i, h, rfl⟩
      · rintro ⟨i2, h, heq⟩
        cases heq
        exact ⟨j, h, rfl⟩
    | inr j2 =>
      simp [mem_adjISD_inr]

theorem adjMSD_symm (G : Graph p q) : ∀ u v, u ∈ adjMSD G v ↔ v ∈ adjMSD G u := by
  intro u v
  cases u with
  | inl i =>
    cases v with
    | inl i2 =>
      simp [mem_adjMSD_inl]
    | inr j =>
      rw [mem_adjMSD_inr, mem_adjMSD_inl]
      constructor
      · rintro ⟨hexp, i2, h, heq⟩
        cases heq
        exact ⟨j, h, hexp, rfl⟩
      · rintro ⟨j2, h, hexp, heq⟩
        cases heq
        exact ⟨hexp, i, h, rfl⟩
  | inr j =>
    cases v with
    | inl i =>
      rw [mem_adjMSD_inl, mem_adjMSD_inr]
      constructor
      · rintro ⟨j2, h, hexp, heq⟩
        cases heq
        exact ⟨hexp, i, h, rfl⟩
      · rintro ⟨hexp, i2, h, heq⟩
        cases heq
        exact ⟨j, h, hexp, rfl⟩
    | inr j2 =>
      simp [mem_adjMSD_inr]

/-- Every observed-only edge is also an all-edges edge. -/
theorem adjMSD_subset_adjISD (G : Graph p q) : ∀ v u, u ∈ adjMSD G v → u ∈ adjISD G v := by
  intro v u hu
  cases v with
  | inl i =>
    rcases mem_adjMSD_inl.1 hu with ⟨j, hj, -, rfl⟩
    exact mem_adjISD_inl.2 ⟨j, hj, rfl⟩
  | inr j =>
    rcases mem_adjMSD_inr.1 hu with ⟨-, i, hi, rfl⟩
    exact mem_adjISD_inr.2 ⟨i, hi, rfl⟩

theorem reaches_msd_isd (G : Graph p q) {a b : Node p q}
    (h : Reaches (adjMSD G) a b) : Reaches (adjISD G) a b :=
  Relation.ReflTransGen.mono (fun x y hxy => adjMSD_subset_adjISD G x y hxy) h

theorem card_node (p q : Nat) : Fintype.card (Node p q) = p + q := by
  simp [Node]

/-! ## Structure of the computed components -/

theorem mem_nodeScanOrder (v : Node p q) : v ∈ nodeScanOrder p q := by
  cases v <;> simp [nodeScanOrder]

theorem mem_protMembers {s : Finset (Node p q)} {i : Fin p} :
    i ∈ protMembers s ↔ Sum.inl i ∈ s := by
  simp [protMembers]

theorem mem_pepMembers {s : Finset (Node p q)} {j : Fin q} :
    j ∈ pepMembers s ↔ Sum.inr j ∈ s := by
  simp [pepMembers]

/-- The coarse components: each is the all-edges reachability component of
its seed; they cover every node; they are pairwise disjoint. -/
theorem isdComponents_spec (G : Graph p q) :
    (∀ c ∈ isdComponents G, ∀ x, x ∈ c.2 ↔ Reaches (adjISD G) c.1 x) ∧
      (∀ x : Node p q, ∃ c ∈ isdComponents G, x ∈ c.2) ∧
      (isdComponents G).Pairwise (fun c c2 => Disjoint c.2 c2.2) := by
  have h := buildGroups_spec (adjISD_nodup G) (adjISD_symm G)
    (p + q) (le_of_eq (card_node p q)) (nodeScanOrder p q) ∅ []
    (by simp) (by simp) (by simp) (by simp)
  rcases h with ⟨h1, h2, h3, h4, -, -⟩
  exact ⟨h1, fun x => (h2 x).1 (h4 x (mem_nodeScanOrder x)), h3⟩

/-- The fine components: each is the observed-only reachability component of
its seed; they cover every experimental peptide; they are pairwise
disjoint. -/
theorem msdComponents_spec (G : Graph p q) :
    (∀ c ∈ msdComponents G, ∀ x, x ∈ c.2 ↔ Reaches (adjMSD G) c.1 x) ∧
      (∀ j : Fin q, G.pepExp j = true → ∃ c ∈ msdComponents G, Sum.inr j ∈ c.2) ∧
      (msdComponents G).Pairwise (fun c c2 => Disjoint c.2 c2.2) := by
  have h := buildGroups_spec (adjMSD_nodup G) (adjMSD_symm G)
    (p + q) (le_of_eq (card_node p q)) (msdSeeds G) ∅ []
    (by simp) (by simp) (by simp) (by simp)
  rcases h with ⟨h1, h2, h3, h4, -, -⟩
  refine ⟨h1, fun j hj => (h2 _).1 (h4 _ ?_), h3⟩
  simp [msdSeeds, List.mem_map, List.mem_filter, hj]

/-- In a pairwise-disjoint component list, `findIdx` recovers the (unique)
index of the component a node belongs to. -/
theorem findIdx_components {α β : Type} [DecidableEq β]
    {l : List (α × Finset β)} {v : β}
    (hdisj : l.Pairwise (fun c c2 => Disjoint c.2 c2.2))
    {k : Nat} (hk : k < l.length) (hv : v ∈ (l.get ⟨k, hk⟩).2) :
    l.findIdx (fun c => decide (v ∈ c.2)) = k := by
  set f := l.findIdx (fun c => decide (v ∈ c.2)) with hf
  have hex : ∃ c ∈ l, (fun c => decide (v ∈ c.2)) c = true :=
    ⟨l.get ⟨k, hk⟩, l.get_mem _ _, by simpa using hv⟩
  have hflt : f < l.length := List.findIdx_lt_length_of_exists hex
  have hmem : v ∈ (l.get ⟨f, hflt⟩).2 := by
    have := List.findIdx_getElem (w := hflt)
    simpa [List.get_eq_getElem] using this
  rcases lt_trichotomy f k with h | h | h
  · have hdisjfk := (List.pairwise_iff_get.1 hdisj) ⟨f, hflt⟩ ⟨k, hk⟩ h
    exact absurd hv (Finset.disjoint_left.1 hdisjfk hmem)
  · exact h
  · have hnot := List.not_of_lt_findIdx h
    simp only [decide_eq_false_iff_not] at hnot
    have hvk : v ∈ l[k].2 := by
      simpa [List.get_eq_getElem] using hv
    exact absurd hvk hnot

/-- `isd_group` is a valid index and the node is in the component there. -/
theorem isd_group_spec (G : Graph p q) (x : Node p q) :
    ∃ hk : isd_group G x < (isdComponents G).length,
      x ∈ ((isdComponents G).get ⟨isd_group G x, hk⟩).2 := by
  rcases (isdComponents_spec G).2.1 x with ⟨c, hc, hx⟩
  have hex : ∃ c2 ∈ isdComponents G, (fun c2 => decide (x ∈ c2.2)) c2 = true :=
    ⟨c, hc, by simpa using hx⟩
  have hlt : isd_group G x < (isdComponents G).length :=
    List.findIdx_lt_length_of_exists hex
  refine ⟨hlt, ?_⟩
  have hlt2 : (isdComponents G).findIdx (fun c2 => decide (x ∈ c2.2)) < (isdComponents G).length := hlt
  have := List.findIdx_getElem (w := hlt2)
  simpa [isd_group, List.get_eq_getElem] using this

/-- Uniqueness: a node in coarse component `k` has `isd_group` equal to `k`. -/
theorem isd_group_eq_of_mem (G : Graph p q) {x : Node p q} {k : Nat}
    (hk : k < (isdComponents G).length)
    (hx : x ∈ ((isdComponents G).get ⟨k, hk⟩).2) : isd_group G x = k :=
  findIdx_components (isdComponents_spec G).2.2 hk hx

/-- Uniqueness: a node in fine component `k` has `msd_group` equal to `k`. -/
theorem msd_group_eq_of_mem (G : Graph p q) {x : Node p q} {k : Nat}
    (hk : k < (msdComponents G).length)
    (hx : x ∈ ((msdComponents G).get ⟨k, hk⟩).2) : msd_group G x = k :=
  findIdx_components (msdComponents_spec G).2.2 hk hx

/-- Every node of a fine component lies in the coarse component of the fine
component's seed. -/
theorem msd_member_in_seed_isd (G : Graph p q) {c : Node p q × Finset (Node p q)}
    (hc : c ∈ msdComponents G) {x : Node p q} (hx : x ∈ c.2) :
    ∀ hk : isd_group G c.1 < (isdComponents G).length,
      x ∈ ((isdComponents G).get ⟨isd_group G c.1, hk⟩).2 := by
  intro hk
  have hreach : Reaches (adjMSD G) c.1 x := ((msdComponents_spec G).1 c hc x).1 hx
  have hreachISD : Reaches (adjISD G) c.1 x := reaches_msd_isd G hreach
  rcases isd_group_spec G c.1 with ⟨hk2, hseed⟩
  have hchar := (isdComponents_spec G).1 _
    ((isdComponents G).get_mem _ hk2)
  have hseedreach : Reaches (adjISD G) ((isdComponents G).get ⟨isd_group G c.1, hk2⟩).1 c.1 :=
    (hchar c.1).1 hseed
  exact (hchar x).2 (hseedreach.trans hreachISD)

/-- Every node of a fine component has the same recorded coarse group as the
component's seed. -/
theorem msd_member_same_isd (G : Graph p q) {c : Node p q × Finset (Node p q)}
    (hc : c ∈ msdComponents G) {x : Node p q} (hx : x ∈ c.2) :
    isd_group G x = isd_group G c.1 := by
  rcases isd_group_spec G c.1 with ⟨hk, -⟩
  exact isd_group_eq_of_mem G hk (msd_member_in_seed_isd G hc hx hk)

/-! ## The group records -/

theorem length_buildingMSDGroups (G : Graph p q) :
    (buildingMSDGroups_ G).length = (msdComponents G).length := by
  simp [buildingMSDGroups_]

theorem length_buildingISDGroups (G : Graph p q) :
    (buildingISDGroups_ G).length = (isdComponents G).length := by
  simp [buildingISDGroups_]

theorem buildingMSDGroups_get (G : Graph p q) (k : Nat)
    (hk : k < (msdComponents G).length) :
    (buildingMSDGroups_ G).get ⟨k, by rw [length_buildingMSDGroups]; exact hk⟩ =
      ⟨protMembers ((msdComponents G).get ⟨k, hk⟩).2,
       pepMembers ((msdComponents G).get ⟨k, hk⟩).2, k,
       isd_group G ((msdComponents G).get ⟨k, hk⟩).1, 0, 0, 0, 0⟩ := by
  simp [buildingMSDGroups_, List.get_eq_getElem, List.getElem?_eq_getElem hk]

theorem buildingISDGroups_get (G : Graph p q) (k : Nat)
    (hk : k < (isdComponents G).length) :
    (buildingISDGroups_ G).get ⟨k, by rw [length_buildingISDGroups]; exact hk⟩ =
      ⟨protMembers ((isdComponents G).get ⟨k, hk⟩).2,
       pepMembers ((isdComponents G).get ⟨k, hk⟩).2, k, msd_groups_of G k⟩ := by
  simp [buildingISDGroups_, List.get_eq_getElem, List.getElem?_eq_getElem hk]

/-- Membership characterisation for the computed MSD-group records. -/
theorem mem_buildingMSDGroups (G : Graph p q) {g : MSDGroup p q} :
    g ∈ buildingMSDGroups_ G ↔ ∃ k, ∃ hk : k < (msdComponents G).length,
      g = ⟨protMembers ((msdComponents G).get ⟨k, hk⟩).2,
           pepMembers ((msdComponents G).get ⟨k, hk⟩).2, k,
           isd_group G ((msdComponents G).get ⟨k, hk⟩).1, 0, 0, 0, 0⟩ := by
  rw [List.mem_iff_get]
  constructor
  · rintro ⟨⟨k, hk⟩, rfl⟩
    have hk2 : k < (msdComponents G).length := by
      rw [← length_buildingMSDGroups G]; exact hk
    exact ⟨k, hk2, buildingMSDGroups_get G k hk2⟩
  · rintro ⟨k, hk, rfl⟩
    exact ⟨⟨k, by rw [length_buildingMSDGroups]; exact hk⟩, buildingMSDGroups_get G k hk⟩

/-- Membership characterisation for the computed ISD-group records. -/
theorem mem_buildingISDGroups (G : Graph p q) {h : ISDGroup p q} :
    h ∈ buildingISDGroups_ G ↔ ∃ k, ∃ hk : k < (isdComponents G).length,
      h = ⟨protMembers ((isdComponents G).get ⟨k, hk⟩).2,
           pepMembers ((isdComponents G).get ⟨k, hk⟩).2, k, msd_groups_of G k⟩ := by
  rw [List.mem_iff_get]
  constructor
  · rintro ⟨⟨k, hk⟩, rfl⟩
    have hk2 : k < (isdComponents G).length := by
      rw [← length_buildingISDGroups G]; exact hk
    exact ⟨k, hk2, buildingISDGroups_get G k hk2⟩
  · rintro ⟨k, hk, rfl⟩
    exact ⟨⟨k, by rw [length_buildingISDGroups]; exact hk⟩, buildingISDGroups_get G k hk⟩

/-- Nodes recorded in an MSD-group record carry that group's `msd_group` and
`isd_group` indices. -/
theorem msd_record_protein_indices (G : Graph p q) {g : MSDGroup p q}
    (hg : g ∈ buildingMSDGroups_ G) {i : Fin p} (hi : i ∈ g.proteins) :
    msd_group G (Sum.inl i) = g.index ∧ isd_group G (Sum.inl i) = g.isd_group := by
  rcases (mem_buildingMSDGroups G).1 hg with ⟨k, hk, rfl⟩
  have hmem : Sum.inl i ∈ ((msdComponents G).get ⟨k, hk⟩).2 := mem_protMembers.1 hi
  refine ⟨msd_group_eq_of_mem G hk hmem, ?_⟩
  exact msd_member_same_isd G ((msdComponents G).get_mem _ hk) hmem

theorem msd_record_peptide_indices (G : Graph p q) {g : MSDGroup p q}
    (hg : g ∈ buildingMSDGroups_ G) {j : Fin q} (hj : j ∈ g.peptides) :
    msd_group G (Sum.inr j) = g.index ∧ isd_group G (Sum.inr j) = g.isd_group := by
  rcases (mem_buildingMSDGroups G).1 hg with ⟨k, hk, rfl⟩
  have hmem : Sum.inr j ∈ ((msdComponents G).get ⟨k, hk⟩).2 := mem_pepMembers.1 hj
  refine ⟨msd_group_eq_of_mem G hk hmem, ?_⟩
  exact msd_member_same_isd G ((msdComponents G).get_mem _ hk) hmem

/-- An MSD group is closed under observed edges: a protein linked to an
experimental peptide member is itself a member. -/
theorem msd_record_protein_of_peptide (G : Graph p q) {g : MSDGroup p q}
    (hg : g ∈ buildingMSDGroups_ G) {j : Fin q} (hj : j ∈ g.peptides)
    (hexp : G.pepExp j = true) {i : Fin p} (hij : j ∈ G.protPeps i) :
    i ∈ g.proteins := by
  rcases (mem_buildingMSDGroups G).1 hg with ⟨k, hk, rfl⟩
  have hmem : Sum.inr j ∈ ((msdComponents G).get ⟨k, hk⟩).2 := mem_pepMembers.1 hj
  have hchar := (msdComponents_spec G).1 _ ((msdComponents G).get_mem _ hk)
  have hreach : Reaches (adjMSD G) ((msdComponents G).get ⟨k, hk⟩).1 (Sum.inr j) :=
    (hchar _).1 hmem
  have hstep : Sum.inl i ∈ adjMSD G (Sum.inr j) :=
    mem_adjMSD_inr.2 ⟨hexp, i, hij, rfl⟩
  have : Reaches (adjMSD G) ((msdComponents G).get ⟨k, hk⟩).1 (Sum.inl i) :=
    hreach.tail hstep
  exact mem_protMembers.2 ((hchar _).2 this)

/-! ## The reindex tables -/

theorem mem_compactProteins (G : Graph p q) {i : Fin p} :
    i ∈ compactProteins G ↔ ∃ g ∈ buildingMSDGroups_ G, i ∈ g.proteins := by
  simp [compactProteins, List.mem_filter]

theorem mem_compactPeptides (G : Graph p q) {j : Fin q} :
    j ∈ compactPeptides G ↔ ∃ g ∈ buildingMSDGroups_ G, j ∈ g.peptides := by
  simp [compactPeptides, List.mem_filter]

theorem reachableProtein_iff (G : Graph p q) (i : Fin p) :
    reachableProtein G i = true ↔ ∃ g ∈ buildingMSDGroups_ G, i ∈ g.proteins := by
  rw [reachableProtein, decide_eq_true_eq, reindexed_proteins, compactProteinCount,
    List.indexOf_lt_length]
  exact mem_compactProteins G

theorem reachablePeptide_iff (G : Graph p q) (j : Fin q) :
    reachablePeptide G j = true ↔ ∃ g ∈ buildingMSDGroups_ G, j ∈ g.peptides := by
  rw [reachablePeptide, decide_eq_true_eq, reindexed_peptides, compactPeptideCount,
    List.indexOf_lt_length]
  exact mem_compactPeptides G

theorem reindexed_proteins_sentinel (G : Graph p q) {i : Fin p}
    (h : ∀ g ∈ buildingMSDGroups_ G, i ∉ g.proteins) :
    reindexed_proteins G i = compactProteinCount G := by
  rw [reindexed_proteins, compactProteinCount]
  refine List.indexOf_eq_length.2 fun hm => ?_
  rcases (mem_compactProteins G).1 hm with ⟨g, hg, hig⟩
  exact h g hg hig

theorem reindexed_peptides_sentinel (G : Graph p q) {j : Fin q}
    (h : ∀ g ∈ buildingMSDGroups_ G, j ∉ g.peptides) :
    reindexed_peptides G j = compactPeptideCount G := by
  rw [reindexed_peptides, compactPeptideCount]
  refine List.indexOf_eq_length.2 fun hm => ?_
  rcases (mem_compactPeptides G).1 hm with ⟨g, hg, hjg⟩
  exact h g hg hjg

theorem getD_eq_get {α : Type} [Inhabited α] (l : List α) (k : Nat) (hk : k < l.length) :
    l.getD k default = l.get ⟨k, hk⟩ := by
  simp [List.getD_eq_getElem?_getD, List.getElem?_eq_getElem hk, List.get_eq_getElem]

/-- The ISD record a node's recorded coarse index points at contains the
node. -/
theorem isd_record_hasNode (G : Graph p q) (v : Node p q) :
    isd_group G v < (buildingISDGroups_ G).length ∧
      ((buildingISDGroups_ G).getD (isd_group G v) default).hasNode v := by
  rcases isd_group_spec G v with ⟨hk, hv⟩
  have hlen : isd_group G v < (buildingISDGroups_ G).length := by
    rw [length_buildingISDGroups]; exact hk
  refine ⟨hlen, ?_⟩
  rw [getD_eq_get _ _ hlen, buildingISDGroups_get G _ hk]
  cases v with
  | inl i => exact mem_protMembers.2 hv
  | inr j => exact mem_pepMembers.2 hv

/-- Conversely, containment in the ISD record at index `k` forces the
recorded coarse index to be `k`. -/
theorem isd_record_hasNode_unique (G : Graph p q) (v : Node p q) {k : Nat}
    (hk : k < (buildingISDGroups_ G).length)
    (hv : ((buildingISDGroups_ G).getD k default).hasNode v) :
    isd_group G v = k := by
  have hk2 : k < (isdComponents G).length := by
    rw [← length_buildingISDGroups G]; exact hk
  rw [getD_eq_get _ _ hk, buildingISDGroups_get G _ hk2] at hv
  refine isd_group_eq_of_mem G hk2 ?_
  cases v with
  | inl i => exact mem_protMembers.1 hv
  | inr j => exact mem_pepMembers.1 hv

/-! ## Claim theorems -/

/-- C1: after a run of the partitioner, every protein node and every peptide
node belongs to exactly one coarse (ISD) group, and for every fine (MSD)
group, the coarse-group index recorded on each of its member nodes equals
the index of the ISD group that owns that fine group. -/
theorem partition_completeness (G : Graph p q) (v : Node p q) :
    (∃! k : Nat, k < (buildingISDGroups_ G).length ∧
        ((buildingISDGroups_ G).getD k default).hasNode v) ∧
      ∀ g ∈ buildingMSDGroups_ G,
        (∀ i ∈ g.proteins, isd_group G (Sum.inl i) = g.isd_group) ∧
          (∀ j ∈ g.peptides, isd_group G (Sum.inr j) = g.isd_group) := by
  constructor
  · refine ⟨isd_group G v, isd_record_hasNode G v, ?_⟩
    intro k ⟨hk, hv⟩
    exact (isd_record_hasNode_unique G v hk hv).symm
  · intro g hg
    exact ⟨fun i hi => (msd_record_protein_indices G hg hi).2,
      fun j hj => (msd_record_peptide_indices G hg hj).2⟩

/-- C1 witness: instantiation at the worked scenario. -/
theorem partition_completeness_witness :
    ((∃! k : Nat, k < (buildingISDGroups_ scenario).length ∧
        ((buildingISDGroups_ scenario).getD k default).hasNode (Sum.inl 0)) ∧
      isd_group scenario (Sum.inl 0) =
        ((buildingMSDGroups_ scenario).getD 0 default).isd_group) :=
  ⟨(partition_completeness scenario (Sum.inl 0)).1,
    ((partition_completeness scenario (Sum.inl 0)).2
      ((buildingMSDGroups_ scenario).getD 0 default) (by decide)).1 0 (by decide)⟩

/-- C2: every fine group's member sets are subsets of its owning coarse
group's member sets; hence the union of the fine groups nested in one coarse
group is a subset of that coarse group — and, as the scenario shows, not
necessarily an equal set (peptide 2 is in the coarse group but in no fine
group). -/
theorem monotonic_refinement (G : Graph p q) :
    (∀ g ∈ buildingMSDGroups_ G,
        g.isd_group < (buildingISDGroups_ G).length ∧
          g.proteins ⊆ ((buildingISDGroups_ G).getD g.isd_group default).proteins ∧
          g.peptides ⊆ ((buildingISDGroups_ G).getD g.isd_group default).peptides) ∧
      (∀ h ∈ buildingISDGroups_ G, ∀ i : Fin p,
        (∃ g ∈ buildingMSDGroups_ G, g.isd_group = h.index ∧ i ∈ g.proteins) →
          i ∈ h.proteins) ∧
      (∀ h ∈ buildingISDGroups_ G, ∀ j : Fin q,
        (∃ g ∈ buildingMSDGroups_ G, g.isd_group = h.index ∧ j ∈ g.peptides) →
          j ∈ h.peptides) ∧
      ((2 : Fin 3) ∈ ((buildingISDGroups_ scenario).getD 0 default).peptides ∧
        ∀ g ∈ buildingMSDGroups_ scenario, (2 : Fin 3) ∉ g.peptides) := by
  have hmain : ∀ g ∈ buildingMSDGroups_ G,
      g.isd_group < (buildingISDGroups_ G).length ∧
        g.proteins ⊆ ((buildingISDGroups_ G).getD g.isd_group default).proteins ∧
        g.peptides ⊆ ((buildingISDGroups_ G).getD g.isd_group default).peptides := by
    intro g hg
    obtain ⟨k, hk, rfl⟩ := (mem_buildingMSDGroups G).1 hg
    set c := (msdComponents G).get ⟨k, hk⟩ with hc
    have hcmem : c ∈ msdComponents G := (msdComponents G).get_mem _ hk
    rcases isd_group_spec G c.1 with ⟨hks, -⟩
    have hlen : isd_group G c.1 < (buildingISDGroups_ G).length := by
      rw [length_buildingISDGroups]; exact hks
    refine ⟨hlen, ?_, ?_⟩
    · intro i hi
      rw [getD_eq_get _ _ hlen, buildingISDGroups_get G _ hks]
      exact mem_protMembers.2 (msd_member_in_seed_isd G hcmem (mem_protMembers.1 hi) hks)
    · intro j hj
      rw [getD_eq_get _ _ hlen, buildingISDGroups_get G _ hks]
      exact mem_pepMembers.2 (msd_member_in_seed_isd G hcmem (mem_pepMembers.1 hj) hks)
  refine ⟨hmain, ?_, ?_, by decide⟩
  · rintro h hh i ⟨g, hg, hgi, hig⟩
    rcases hmain g hg with ⟨hlen, hsub, -⟩
    obtain ⟨k, hk, rfl⟩ := (mem_buildingISDGroups G).1 hh
    have hgix : g.isd_group = k := hgi
    have := hsub hig
    rw [getD_eq_get _ _ hlen] at this
    have hk2 : g.isd_group < (isdComponents G).length := by
      rw [← length_buildingISDGroups G]; exact hlen
    rw [buildingISDGroups_get G _ hk2] at this
    simp only [hgix] at this ⊢
    exact this
  · rintro h hh j ⟨g, hg, hgi, hjg⟩
    rcases hmain g hg with ⟨hlen, -, hsub⟩
    obtain ⟨k, hk, rfl⟩ := (mem_buildingISDGroups G).1 hh
    have hgix : g.isd_group = k := hgi
    have := hsub hjg
    rw [getD_eq_get _ _ hlen] at this
    have hk2 : g.isd_group < (isdComponents G).length := by
      rw [← length_buildingISDGroups G]; exact hlen
    rw [buildingISDGroups_get G _ hk2] at this
    simp only [hgix] at this ⊢
    exact this

/-- C2 witness: instantiation at the worked scenario. -/
theorem monotonic_refinement_witness :
    ((buildingMSDGroups_ scenario).getD 0 default).proteins ⊆
      ((buildingISDGroups_ scenario).getD
        ((buildingMSDGroups_ scenario).getD 0 default).isd_group default).proteins :=
  (((monotonic_refinement scenario).1 _ (by decide)).2).1

/-- C10: the cross references between group records and nodes are mutually
consistent: every MSD group's owning ISD group lists it back in `msd_groups`,
and every member node records the MSD group's index as its `msd_group` and
the owning ISD group's index as its `isd_group`. -/
theorem cross_reference_consistency (G : Graph p q) :
    ∀ g ∈ buildingMSDGroups_ G,
      g.isd_group < (buildingISDGroups_ G).length ∧
        g.index ∈ ((buildingISDGroups_ G).getD g.isd_group default).msd_groups ∧
        (∀ i ∈ g.proteins,
          msd_group G (Sum.inl i) = g.index ∧ isd_group G (Sum.inl i) = g.isd_group) ∧
        (∀ j ∈ g.peptides,
          msd_group G (Sum.inr j) = g.index ∧ isd_group G (Sum.inr j) = g.isd_group) := by
  intro g hg
  have hprot := fun i hi => msd_record_protein_indices G hg (i := i) hi
  have hpep := fun j hj => msd_record_peptide_indices G hg (j := j) hj
  obtain ⟨k, hk, rfl⟩ := (mem_buildingMSDGroups G).1 hg
  rcases isd_group_spec G ((msdComponents G).get ⟨k, hk⟩).1 with ⟨hks, -⟩
  have hlen : isd_group G ((msdComponents G).get ⟨k, hk⟩).1 < (buildingISDGroups_ G).length := by
    rw [length_buildingISDGroups]; exact hks
  refine ⟨hlen, ?_, hprot, hpep⟩
  rw [getD_eq_get _ _ hlen, buildingISDGroups_get G _ hks]
  simp only [msd_groups_of, List.mem_filter, List.mem_range]
  refine ⟨hk, ?_⟩
  rw [List.getElem?_eq_getElem hk]
  simp [List.get_eq_getElem]

/-- C10 witness: instantiation at the worked scenario. -/
theorem cross_reference_consistency_witness :
    ((buildingMSDGroups_ scenario).getD 0 default).index ∈
      ((buildingISDGroups_ scenario).getD
        ((buildingMSDGroups_ scenario).getD 0 default).isd_group default).msd_groups :=
  (cross_reference_consistency scenario _ (by decide)).2.1

/-- C3: a node in no fine group gets the sentinel reindex value (the size of
the compacted table); a node in some fine group gets a compact index
strictly below the compacted table size. -/
theorem reindex_exclusion (G : Graph p q) (i : Fin p) (j : Fin q) :
    ((∃ g ∈ buildingMSDGroups_ G, i ∈ g.proteins) →
        reindexed_proteins G i < compactProteinCount G) ∧
      ((∀ g ∈ buildingMSDGroups_ G, i ∉ g.proteins) →
        reindexed_proteins G i = compactProteinCount G) ∧
      ((∃ g ∈ buildingMSDGroups_ G, j ∈ g.peptides) →
        reindexed_peptides G j < compactPeptideCount G) ∧
      ((∀ g ∈ buildingMSDGroups_ G, j ∉ g.peptides) →
        reindexed_peptides G j = compactPeptideCount G) := by
  refine ⟨fun hex => ?_, reindexed_proteins_sentinel G, fun hex => ?_,
    reindexed_peptides_sentinel G⟩
  · exact List.indexOf_lt_length.2 ((mem_compactProteins G).2 hex)
  · exact List.indexOf_lt_length.2 ((mem_compactPeptides G).2 hex)

/-- C3 witness: in the scenario, protein 0 is reindexed below the table size
and the never-observed peptide 2 receives the sentinel. -/
theorem reindex_exclusion_witness :
    reindexed_proteins scenario 0 < compactProteinCount scenario ∧
      reindexed_peptides scenario 2 = compactPeptideCount scenario :=
  ⟨(reindex_exclusion scenario 0 2).1 (by decide),
    (reindex_exclusion scenario 0 2).2.2.2 (by decide)⟩

theorem protein_type_primary_iff (G : Graph p q) (i : Fin p) :
    protein_type G i = ProteinEntryType.primary ↔
      ((G.protPeps i).any
        (fun j => G.pepExp j && reachablePeptide G j &&
          ((restrictedProteins G j).length == 1))) = true := by
  rw [protein_type]
  split <;> simp_all

/-- If peptide `j` is an experimental reachable peptide of protein `i` whose
reachable-protein edge count is one, then that edge list is exactly `[i]`. -/
theorem restricted_singleton (G : Graph p q) {i : Fin p} {j : Fin q}
    (hij : j ∈ G.protPeps i) (hexp : G.pepExp j = true)
    (hreach : reachablePeptide G j = true)
    (hlen : (restrictedProteins G j).length = 1) :
    restrictedProteins G j = [i] := by
  have hi : i ∈ restrictedProteins G j := by
    rcases (reachablePeptide_iff G j).1 hreach with ⟨g, hg, hjg⟩
    have hip : i ∈ g.proteins := msd_record_protein_of_peptide G hg hjg hexp hij
    refine List.mem_filter.2 ⟨mem_pepProts.2 hij, ?_⟩
    exact (reachableProtein_iff G i).2 ⟨g, hg, hip⟩
  rcases List.length_eq_one.1 hlen with ⟨a, ha⟩
  rw [ha] at hi ⊢
  rw [List.mem_singleton] at hi
  rw [hi]

/-- C4: a protein is labeled primary iff some reachable experimental peptide
of it has exactly `[i]` as its reachable protein edges; a protein with no
such peptide is labeled secondary. -/
theorem primary_uniqueness (G : Graph p q) (i : Fin p) :
    (protein_type G i = ProteinEntryType.primary ↔
        ∃ j : Fin q, j ∈ G.protPeps i ∧ G.pepExp j = true ∧
          reachablePeptide G j = true ∧ restrictedProteins G j = [i]) ∧
      ((¬ ∃ j : Fin q, j ∈ G.protPeps i ∧ G.pepExp j = true ∧
          reachablePeptide G j = true ∧ restrictedProteins G j = [i]) →
        protein_type G i = ProteinEntryType.secondary) := by
  have hiff : protein_type G i = ProteinEntryType.primary ↔
      ∃ j : Fin q, j ∈ G.protPeps i ∧ G.pepExp j = true ∧
        reachablePeptide G j = true ∧ restrictedProteins G j = [i] := by
    rw [protein_type_primary_iff, List.any_eq_true]
    constructor
    · rintro ⟨j, hj, hcond⟩
      simp only [Bool.and_eq_true, beq_iff_eq] at hcond
      exact ⟨j, hj, hcond.1.1, hcond.1.2,
        restricted_singleton G hj hcond.1.1 hcond.1.2 hcond.2⟩
    · rintro ⟨j, hj, hexp, hreach, hlist⟩
      refine ⟨j, hj, ?_⟩
      simp only [Bool.and_eq_true, beq_iff_eq]
      exact ⟨⟨hexp, hreach⟩, by rw [hlist]; rfl⟩
  refine ⟨hiff, fun hne => ?_⟩
  rw [protein_type]
  rw [if_neg]
  intro hany
  exact hne (hiff.1 (by rw [protein_type_primary_iff] at hiff ⊢; exact hany))

/-- C4 witness: in the scenario protein 0 is primary via peptide 0, whose
only reachable protein edge is protein 0. -/
theorem primary_uniqueness_witness :
    ∃ j : Fin 3, j ∈ scenario.protPeps 0 ∧ scenario.pepExp j = true ∧
      reachablePeptide scenario j = true ∧ restrictedProteins scenario j = [0] :=
  (primary_uniqueness scenario 0).1.1 (by decide)

/-- C5: the indistinguishable-with relation is symmetric and faithful:
a linked partner has a structurally equal reindexed identifying-peptide set
and links back. -/
theorem indistinguishable_symmetry (G : Graph p q) (a b : Fin p) :
    b ∈ indis G a →
      identifyingPeptides G b = identifyingPeptides G a ∧ a ∈ indis G b := by
  intro hb
  simp only [indis, List.mem_filter, List.mem_finRange, true_and, Bool.and_eq_true,
    decide_eq_true_eq] at hb ⊢
  exact ⟨hb.2, fun h => hb.1 h.symm, hb.2.symm⟩

/-- C5 witness: the two proteins sharing one observed peptide are mutually
linked with equal identifying sets. -/
theorem indistinguishable_symmetry_witness :
    identifyingPeptides twinScenario 1 = identifyingPeptides twinScenario 0 ∧
      (0 : Fin 2) ∈ indis twinScenario 1 :=
  indistinguishable_symmetry twinScenario 0 1 (by decide)

/-- C6: the computed MSD-group intensity is the statistical median of the
group's experimental peptide intensities: some ascending sorted permutation
of them whose middle element (odd count) or average of the two central
elements (even count) is the recorded intensity; in particular the median of
`[1,2,3]` is `2` and the median of `[1,2,3,4]` is `5/2`. -/
theorem median_correctness (G : Graph p q) (gs : List (MSDGroup p q)) :
    (∀ g ∈ computeIntensityOfMSD_ G gs, ∃ s : List ℚ,
        s.Perm (msdPeptideIntensities G g) ∧ s.Sorted (· ≤ ·) ∧
          g.intensity = (if s.length % 2 = 1 then s.getD (s.length / 2) 0
            else (s.getD (s.length / 2 - 1) 0 + s.getD (s.length / 2) 0) / 2)) ∧
      median [1, 2, 3] = 2 ∧ median [1, 2, 3, 4] = 5 / 2 := by
  refine ⟨?_, by norm_num [median, List.insertionSort, List.orderedInsert],
    by norm_num [median, List.insertionSort, List.orderedInsert]⟩
  intro g hg
  rcases List.mem_map.1 hg with ⟨g0, hg0, rfl⟩
  refine ⟨(msdPeptideIntensities G g0).insertionSort (· ≤ ·), ?_, ?_, ?_⟩
  · exact List.perm_insertionSort _ _
  · exact List.sorted_insertionSort _ _
  · have hlen : ((msdPeptideIntensities G g0).insertionSort (· ≤ ·)).length =
        (msdPeptideIntensities G g0).length :=
      (List.perm_insertionSort _ _).length_eq
    simp only [median, hlen]

/-- C6 witness: the scenario's single fine group gets intensity 15, the
median of `[10, 20]`. -/
theorem median_correctness_witness :
    ∃ s : List ℚ,
      s.Perm (msdPeptideIntensities scenario
        ((computeIntensityOfMSD_ scenario (buildingMSDGroups_ scenario)).getD 0 default)) ∧
        s.Sorted (· ≤ ·) ∧
        ((computeIntensityOfMSD_ scenario (buildingMSDGroups_ scenario)).getD 0
            default).intensity =
          (if s.length % 2 = 1 then s.getD (s.length / 2) 0
            else (s.getD (s.length / 2 - 1) 0 + s.getD (s.length / 2) 0) / 2) :=
  (median_correctness scenario (buildingMSDGroups_ scenario)).1 _
    (by rw [getD_eq_get _ _ (by decide)]; exact List.get_mem _ _ _)

/-- C7: after `countTargetDecoy`, each fine group's target count plus decoy
count equals the recorded target-plus-decoy total, which equals the group's
peptide-member count. -/
theorem target_decoy_totals (G : Graph p q) (gs : List (MSDGroup p q)) :
    ∀ g ∈ countTargetDecoy G gs,
      g.number_of_target + g.number_of_decoy = g.number_of_target_plus_decoy ∧
        g.number_of_target_plus_decoy = g.peptides.card := by
  intro g hg
  rcases List.mem_map.1 hg with ⟨g0, hg0, rfl⟩
  simp only
  constructor
  · exact Nat.add_comm _ _
  · have hfilters := Finset.filter_card_add_filter_neg_card_eq_card
      (s := g0.peptides) (p := fun j => G.pepDecoy j = true)
    have hneg : g0.peptides.filter (fun j => G.pepDecoy j = false) =
        g0.peptides.filter (fun j => ¬ (G.pepDecoy j = true)) := by
      apply Finset.filter_congr
      intro x hx
      simp
    rw [hneg]
    exact hfilters

/-- C7 witness: the scenario's fine group has 0 decoys, 2 targets, total 2 =
its peptide count. -/
theorem target_decoy_totals_witness :
    ((countTargetDecoy scenario (buildingMSDGroups_ scenario)).getD 0
          default).number_of_target +
        ((countTargetDecoy scenario (buildingMSDGroups_ scenario)).getD 0
          default).number_of_decoy =
      ((countTargetDecoy scenario (buildingMSDGroups_ scenario)).getD 0
        default).number_of_target_plus_decoy ∧
      ((countTargetDecoy scenario (buildingMSDGroups_ scenario)).getD 0
          default).number_of_target_plus_decoy =
        ((countTargetDecoy scenario (buildingMSDGroups_ scenario)).getD 0
          default).peptides.card :=
  target_decoy_totals scenario (buildingMSDGroups_ scenario) _ (by decide)

/-- The measure of a seed-started traversal is bounded by the number of
nodes. -/
theorem measure_insert_le {V : Type} [DecidableEq V] [Fintype V] (v : V)
    (visited : Finset V) :
    (Finset.univ \ insert v visited).card + 1 ≤ Fintype.card V := by
  have h1 : Finset.univ \ insert v visited ⊆ Finset.univ \ {v} := by
    intro x hx
    rw [Finset.mem_sdiff] at hx ⊢
    refine ⟨hx.1, ?_⟩
    simp only [Finset.mem_singleton]
    intro h
    exact hx.2 (h ▸ Finset.mem_insert_self v visited)
  have h2 : (Finset.univ \ ({v} : Finset V)).card = Fintype.card V - 1 := by
    rw [Finset.card_sdiff (Finset.subset_univ _), Finset.card_singleton, Finset.card_univ]
  have h3 := Finset.card_le_card h1
  have h4 : 1 ≤ Fintype.card V := Fintype.card_pos_iff.2 ⟨v⟩
  omega

/-- C9: each traversal phase terminates on every finite graph, cycles
included: the result is already reached with fuel `p + q` (so larger fuel
changes nothing), the enqueue log never repeats a node (the visited marker
is checked before enqueuing), and at most as many nodes as the graph
contains are ever enqueued.  Both the all-edges phase and the observed-only
phase are covered. -/
theorem traversal_terminates (G : Graph p q) (v : Node p q)
    (visited : Finset (Node p q)) (fuel : Nat) (hfuel : p + q ≤ fuel) :
    (traverse_ (adjISD G) fuel (insert v visited) [v] [v] =
        traverse_ (adjISD G) (p + q) (insert v visited) [v] [v] ∧
      (traverse_ (adjISD G) fuel (insert v visited) [v] [v]).2.Nodup ∧
      (traverse_ (adjISD G) fuel (insert v visited) [v] [v]).2.length ≤ p + q) ∧
      (traverse_ (adjMSD G) fuel (insert v visited) [v] [v] =
          traverse_ (adjMSD G) (p + q) (insert v visited) [v] [v] ∧
        (traverse_ (adjMSD G) fuel (insert v visited) [v] [v]).2.Nodup ∧
        (traverse_ (adjMSD G) fuel (insert v visited) [v] [v]).2.length ≤ p + q) := by
  have hM : (Finset.univ \ insert v visited).card + ([v] : List (Node p q)).length ≤ p + q := by
    have := measure_insert_le v visited
    rw [card_node p q] at this
    simpa using this
  have hlog : ∀ adj : Node p q → List (Node p q), (∀ w, (adj w).Nodup) →
      ∀ fl : Nat, (traverse_ adj fl (insert v visited) [v] [v]).2.Nodup ∧
        (traverse_ adj fl (insert v visited) [v] [v]).2.length ≤ p + q := by
    intro adj hadj fl
    have h := traverse_log hadj fl (insert v visited) [v] [v]
      (List.nodup_singleton v)
      (by intro x hx; rw [List.mem_singleton] at hx; exact hx ▸ Finset.mem_insert_self v visited)
      (by intro x hx; rw [List.mem_singleton] at hx; exact hx ▸ Finset.mem_insert_self v visited)
    refine ⟨h.1, ?_⟩
    have hcard : (traverse_ adj fl (insert v visited) [v] [v]).2.toFinset.card =
        (traverse_ adj fl (insert v visited) [v] [v]).2.length :=
      List.toFinset_card_of_nodup h.1
    calc (traverse_ adj fl (insert v visited) [v] [v]).2.length
        = (traverse_ adj fl (insert v visited) [v] [v]).2.toFinset.card := hcard.symm
      _ ≤ Finset.univ.card := Finset.card_le_univ _
      _ = p + q := by rw [Finset.card_univ, card_node]
  exact ⟨⟨traverse_fuel_irrelevant (adjISD_nodup G) fuel (p + q) _ _ _
      (le_trans hM hfuel) hM, hlog _ (adjISD_nodup G) fuel⟩,
    ⟨traverse_fuel_irrelevant (adjMSD_nodup G) fuel (p + q) _ _ _
      (le_trans hM hfuel) hM, hlog _ (adjMSD_nodup G) fuel⟩⟩

/-- C9 witness: extra fuel does not change the scenario's coarse traversal. -/
theorem traversal_terminates_witness :
    traverse_ (adjISD scenario) 9 (insert (Sum.inl 0) ∅) [Sum.inl 0] [Sum.inl 0] =
      traverse_ (adjISD scenario) (2 + 3) (insert (Sum.inl 0) ∅) [Sum.inl 0] [Sum.inl 0] :=
  (traversal_terminates scenario (Sum.inl 0) ∅ 9 (by decide)).1.1

/-! ## The sequence lookup -/

theorem bsn_succ (sq : String) (nodes : List PeptideEntry) (fuel start stop : Nat) :
    binarySearchNodes_ sq nodes (fuel + 1) start stop =
      if start < stop then
        (if (nodes.getD ((start + stop) / 2) default).sequence < sq then
          binarySearchNodes_ sq nodes fuel ((start + stop) / 2 + 1) stop
        else if sq < (nodes.getD ((start + stop) / 2) default).sequence then
          binarySearchNodes_ sq nodes fuel start ((start + stop) / 2)
        else (start + stop) / 2)
      else nodes.length := rfl

theorem bsn_base (sq : String) (nodes : List PeptideEntry) (fuel start stop : Nat)
    (h : ¬ start < stop) :
    binarySearchNodes_ sq nodes fuel start stop = nodes.length := by
  cases fuel with
  | zero => rfl
  | succ fuel => rw [bsn_succ, if_neg h]

theorem bsn_step_lt (sq : String) (nodes : List PeptideEntry) (fuel start stop : Nat)
    (h : start < stop)
    (hlt : (nodes.getD ((start + stop) / 2) default).sequence < sq) :
    binarySearchNodes_ sq nodes (fuel + 1) start stop =
      binarySearchNodes_ sq nodes fuel ((start + stop) / 2 + 1) stop := by
  rw [bsn_succ, if_pos h, if_pos hlt]

theorem bsn_step_gt (sq : String) (nodes : List PeptideEntry) (fuel start stop : Nat)
    (h : start < stop)
    (h1 : ¬ (nodes.getD ((start + stop) / 2) default).sequence < sq)
    (h2 : sq < (nodes.getD ((start + stop) / 2) default).sequence) :
    binarySearchNodes_ sq nodes (fuel + 1) start stop =
      binarySearchNodes_ sq nodes fuel start ((start + stop) / 2) := by
  rw [bsn_succ, if_pos h, if_neg h1, if_pos h2]

theorem bsn_step_eq (sq : String) (nodes : List PeptideEntry) (fuel start stop : Nat)
    (h : start < stop)
    (h1 : ¬ (nodes.getD ((start + stop) / 2) default).sequence < sq)
    (h2 : ¬ sq < (nodes.getD ((start + stop) / 2) default).sequence) :
    binarySearchNodes_ sq nodes (fuel + 1) start stop = (start + stop) / 2 := by
  rw [bsn_succ, if_pos h, if_neg h1, if_neg h2]

/-- Strictly sequence-sorted collections compare by position. -/
theorem sorted_getD_lt {nodes : List PeptideEntry}
    (hs : nodes.Pairwise (fun a b => a.sequence < b.sequence)) {i j : Nat}
    (hi : i < nodes.length) (hj : j < nodes.length) (hij : i < j) :
    (nodes.getD i default).sequence < (nodes.getD j default).sequence := by
  rw [getD_eq_get _ _ hi, getD_eq_get _ _ hj]
  exact List.pairwise_iff_get.1 hs ⟨i, hi⟩ ⟨j, hj⟩ hij

/-- In a strictly sequence-sorted collection, a sequence occurs at one
position at most. -/
theorem sorted_seq_inj {nodes : List PeptideEntry}
    (hs : nodes.Pairwise (fun a b => a.sequence < b.sequence)) {i j : Nat}
    (hi : i < nodes.length) (hj : j < nodes.length)
    (hseq : (nodes.getD i default).sequence = (nodes.getD j default).sequence) :
    i = j := by
  rcases lt_trichotomy i j with h | h | h
  · exact absurd (hseq ▸ sorted_getD_lt hs hi hj h) (lt_irrefl _)
  · exact h
  · exact absurd (hseq ▸ sorted_getD_lt hs hj hi h) (lt_irrefl _)

/-- Correctness of the modelled binary search on any subrange, given enough
fuel: a miss on the whole range returns the sentinel `nodes.length`, and a
hit returns exactly the position of the (unique) node with the sequence. -/
theorem binarySearchNodes_correct (sq : String) (nodes : List PeptideEntry)
    (hs : nodes.Pairwise (fun a b => a.sequence < b.sequence)) :
    ∀ (fuel start stop : Nat), stop ≤ nodes.length → stop - start < fuel →
      ((∀ i, start ≤ i → i < stop → (nodes.getD i default).sequence ≠ sq) →
        binarySearchNodes_ sq nodes fuel start stop = nodes.length) ∧
      (∀ i, start ≤ i → i < stop → (nodes.getD i default).sequence = sq →
        binarySearchNodes_ sq nodes fuel start stop = i) := by
  intro fuel
  induction fuel with
  | zero =>
    intro start stop hstop hfuel
    omega
  | succ fuel ih =>
    intro start stop hstop hfuel
    by_cases hss : start < stop
    · have hmid1 : start ≤ (start + stop) / 2 := by omega
      have hmid2 : (start + stop) / 2 < stop := by omega
      have hmidlen : (start + stop) / 2 < nodes.length := lt_of_lt_of_le hmid2 hstop
      rcases lt_trichotomy (nodes.getD ((start + stop) / 2) default).sequence sq
        with hlt | heq | hgt
      · rw [bsn_step_lt sq nodes fuel start stop hss hlt]
        have hrec := ih ((start + stop) / 2 + 1) stop hstop (by omega)
        constructor
        · intro hmiss
          exact hrec.1 fun i hi1 hi2 => hmiss i (by omega) hi2
        · intro i hi1 hi2 hseq
          have hmidi : (start + stop) / 2 < i := by
            rcases lt_trichotomy i ((start + stop) / 2) with h | h | h
            · have := sorted_getD_lt hs (lt_of_lt_of_le hi2 hstop) hmidlen h
              rw [hseq] at this
              exact absurd (this.trans hlt) (lt_irrefl _)
            · rw [h] at hseq
              rw [hseq] at hlt
              exact absurd hlt (lt_irrefl _)
            · exact h
          exact hrec.2 i (by omega) hi2 hseq
      · constructor
        · intro hmiss
          exact absurd heq (hmiss _ hmid1 hmid2)
        · intro i hi1 hi2 hseq
          rw [bsn_step_eq sq nodes fuel start stop hss (by rw [heq]; exact lt_irrefl _)
            (by rw [heq]; exact lt_irrefl _)]
          exact (sorted_seq_inj hs hmidlen (lt_of_lt_of_le hi2 hstop)
            (heq.trans hseq.symm)).symm ▸ rfl
      · rw [bsn_step_gt sq nodes fuel start stop hss (lt_asymm hgt) hgt]
        have hrec := ih start ((start + stop) / 2) (le_of_lt hmidlen) (by omega)
        constructor
        · intro hmiss
          exact hrec.1 fun i hi1 hi2 => hmiss i hi1 (by omega)
        · intro i hi1 hi2 hseq
          have hmidi : i < (start + stop) / 2 := by
            rcases lt_trichotomy i ((start + stop) / 2) with h | h | h
            · exact h
            · rw [h] at hseq
              rw [hseq] at hgt
              exact absurd hgt (lt_irrefl _)
            · have := sorted_getD_lt hs hmidlen (lt_of_lt_of_le hi2 hstop) h
              rw [hseq] at this
              exact absurd (hgt.trans this) (lt_irrefl _)
          exact hrec.2 i hi1 hmidi hseq
    · rw [bsn_base sq nodes (fuel + 1) start stop hss]
      exact ⟨fun _ => rfl, fun i hi1 hi2 _ => absurd (lt_of_le_of_lt hi1 hi2) hss⟩

/-- C8: the sequence lookup never raises: on a sequence-sorted collection it
returns the position of the node carrying the sequence when one exists, and
the sentinel value `nodes.length` otherwise. -/
theorem sequence_lookup (sq : String) (nodes : List PeptideEntry)
    (hs : nodes.Pairwise (fun a b => a.sequence < b.sequence)) :
    ((∀ i, i < nodes.length → (nodes.getD i default).sequence ≠ sq) →
        findPeptideEntry_ sq nodes = nodes.length) ∧
      (∀ i, i < nodes.length → (nodes.getD i default).sequence = sq →
        findPeptideEntry_ sq nodes = i) := by
  have h := binarySearchNodes_correct sq nodes hs (nodes.length + 1) 0 nodes.length
    (le_refl _) (by omega)
  exact ⟨fun hmiss => h.1 fun i _ hi2 => hmiss i hi2,
    fun i hi hseq => h.2 i (Nat.zero_le i) hi hseq⟩

/-- C8 witness: on the sample collection, the lookup finds "ELVISK" at
position 1 and returns the sentinel 3 for the absent "BK". -/
theorem sequence_lookup_witness :
    findPeptideEntry_ "ELVISK" sampleNodes = 1 ∧
      findPeptideEntry_ "BK" sampleNodes = sampleNodes.length :=
  ⟨(sequence_lookup "ELVISK" sampleNodes
      (by simp [sampleNodes, List.pairwise_cons, String.lt_iff_toList_lt]; decide)).2 1
      (by decide) (by decide),
    (sequence_lookup "BK" sampleNodes
      (by simp [sampleNodes, List.pairwise_cons, String.lt_iff_toList_lt]; decide)).1
      (by decide)⟩

end ProteinResolver
